import Mathlib

/-!
# Verification of the i18nWeave translation-sync pipeline

A shallow embedding of the repository's translation-synchronization core:

* the JSON tree data model of locale files,
* the structural diff engine (`diffJsonObjects`, backed by `deep-diff`),
* `TranslationStore.getTranslationFileDiffs` / `updateEntry`,
* `TranslationModule.doExecuteAsync` with its phases
  `extractRelevantChanges`, `findRelatedFiles`, `translateChanges`,
  `applyTranslationsToFiles`, `applyDiffsToJSON`,
* the change-handler chain of `BaseActionModule.execute`,
* the watch dispatcher callback of `FileWatcherCreator`.

File-system state, the translation-provider call, the status bar, the lock
store and the logger are external collaborators; they are embedded as
explicit state (`St`) plus pure function parameters (`PipelineEnv`).
Byte-level serialization details (indentation width, trailing newline) are
abstracted: files hold parsed trees (`RawFile`).
-/

set_option autoImplicit false

/-- A JSON value as stored in a locale file: strings, numbers, booleans,
`null`, and objects as ordered association lists of fields (JavaScript
objects preserve insertion order).  Locale files do not use arrays, and
the diff paths produced for them are key sequences. -/
inductive JsonValue where
  | str (s : String)
  | num (n : Int)
  | bool (b : Bool)
  | null
  | obj (fields : List (String × JsonValue))
  deriving Repr

/-- Association-list lookup, the embedding of a JavaScript object / `Map`
key access: the first binding of the key wins. -/
def alistGet {α : Type} (k : String) : List (String × α) → Option α
  | [] => none
  | (l, v) :: rest => if l == k then some v else alistGet k rest

/-- Association-list update, the embedding of `obj[k] = v` / `Map.set`:
replace the first binding of the key, or append a new binding. -/
def alistSet {α : Type} (k : String) (v : α) : List (String × α) → List (String × α)
  | [] => [(k, v)]
  | (l, w) :: rest => if l == k then (l, v) :: rest else (l, w) :: alistSet k v rest

/-- The JavaScript reduction `path.reduce((obj, key) => obj?.[key], root)`:
walk a key path down a JSON tree; `none` models `undefined`.  Indexing a
scalar yields `none` (JSON locale trees are nested objects of strings). -/
def getValueAtPath : JsonValue → List String → Option JsonValue
  | v, [] => some v
  | .obj fs, k :: rest =>
    match alistGet k fs with
    | some v => getValueAtPath v rest
    | none => none
  | _, _ :: _ => none

/-- `deep-diff`'s `applyChange` for a New/Edited entry: walk the path,
creating empty-object intermediates where a key is missing, and assign the
final key. -/
def setAtPath : JsonValue → List String → JsonValue → JsonValue
  | _, [], v => v
  | .obj fs, k :: rest, v =>
    match alistGet k fs with
    | some w => .obj (alistSet k (setAtPath w rest v) fs)
    | none => .obj (fs ++ [(k, setAtPath (.obj []) rest v)])
  | t, _ :: _, _ => t

/-- Remove a binding from an object's field list. -/
def removeField (k : String) : List (String × JsonValue) → List (String × JsonValue)
  | [] => []
  | (l, w) :: rest => if l == k then rest else (l, w) :: removeField k rest

/-- `lodash.unset` along an already-split key path. -/
def unsetAtPath : JsonValue → List String → JsonValue
  | t, [] => t
  | .obj fs, [k] => .obj (removeField k fs)
  | .obj fs, k :: rest =>
    match alistGet k fs with
    | some w => .obj (alistSet k (unsetAtPath w rest) fs)
    | none => .obj fs
  | t, _ :: _ => t

/-- `lodash.unset(target, pathString)` where the path string is split on
dots (the module joins the diff path with `'.'` first, so keys containing
a dot are re-split). -/
def lodashUnset (t : JsonValue) (pathStr : String) : JsonValue :=
  unsetAtPath t (pathStr.splitOn ".")

/-- Strict equality of non-object JSON values, as `deep-diff` compares
leaves (`lhs !== rhs` plus a type comparison).  Two objects are never
compared here; the diff recurses into them instead. -/
def scalarEq : JsonValue → JsonValue → Bool
  | .str a, .str b => a == b
  | .num a, .num b => a == b
  | .bool a, .bool b => a == b
  | .null, .null => true
  | _, _ => false

/-- The four `deep-diff` change kinds: `N`ew, `E`dited, `D`eleted, and
`A`rray change. -/
inductive DKind where
  | N
  | E
  | D
  | A
  deriving Repr, DecidableEq

/-- One `deep-diff` entry: a kind, a key path, and the old/new values
(`none` models an absent field, JavaScript `undefined`). -/
structure DiffEntry where
  kind : DKind
  path : List String
  lhs : Option JsonValue
  rhs : Option JsonValue
  deriving Repr

/-- Modelled from the spec: the `N`ew-key half of the repository's
`diffJsonObjects` (the `util-file-diff` wrapper over `deep-diff`, whose
source is not part of this snapshot).  For each key of the new object that
the old object lacks, emit an Added entry. -/
def diffAdd (pref : List String) (fs : List (String × JsonValue)) :
    List (String × JsonValue) → List DiffEntry
  | [] => []
  | (k, w) :: rest =>
    (match alistGet k fs with
     | some _ => []
     | none => [{ kind := .N, path := pref ++ [k], lhs := none, rhs := some w }]) ++
      diffAdd pref fs rest

mutual

/-- Modelled from the spec: the repository's `diffJsonObjects`
(`util-file-diff`, wrapping `deep-diff`), whose source is not part of this
snapshot.  Two objects are recursed into key by key; a key present only on
the left is Deleted, only on the right is Added; differing non-object
values (including a value changing type) are Edited; equal values produce
nothing. -/
def diffVal (pref : List String) : JsonValue → JsonValue → List DiffEntry
  | .obj fs, .obj gs => diffDel pref gs fs ++ diffAdd pref fs gs
  | l, r =>
    if scalarEq l r then []
    else [{ kind := .E, path := pref, lhs := some l, rhs := some r }]

/-- Walk the old object's fields: recurse where the key survives, emit a
Deleted entry where it does not. -/
def diffDel (pref : List String) (gs : List (String × JsonValue)) :
    List (String × JsonValue) → List DiffEntry
  | [] => []
  | (k, v) :: rest =>
    (match alistGet k gs with
     | some w => diffVal (pref ++ [k]) v w
     | none => [{ kind := .D, path := pref ++ [k], lhs := some v, rhs := none }]) ++
      diffDel pref gs rest

end

/-- The recursion of `TranslationModule.getAllStringValues` over an
object's fields: a string field is collected whole, an object field is
recursed into, other fields contribute nothing. -/
def collectStrings : List (String × JsonValue) → List String
  | [] => []
  | (_, .str s) :: rest => s :: collectStrings rest
  | (_, .obj fs) :: rest => collectStrings fs ++ collectStrings rest
  | (_, _) :: rest => collectStrings rest

/-- `TranslationModule.getAllStringValues`: collect the string leaves of a
value.  A JavaScript `for…in` over a string iterates its character
indices, so a top-level string contributes its characters; numbers,
booleans and `null` contribute nothing. -/
def getAllStringValues : JsonValue → List String
  | .str s => s.toList.map (fun c => String.mk [c])
  | .obj fields => collectStrings fields
  | _ => []

/-- `getAllStringValues` applied to a diff entry's `rhs`; `none`
(JavaScript `undefined`) yields nothing. -/
def stringValuesOpt : Option JsonValue → List String
  | none => []
  | some v => getAllStringValues v

/-- `TranslationModule.extractRelevantChanges`: keep Added/Edited entries
whose new value is not the empty string and whose string-leaf collection
contains at least one non-empty string. -/
def extractRelevantChanges (diffs : List DiffEntry) : List DiffEntry :=
  diffs.filter fun d =>
    (d.kind == .N || d.kind == .E) &&
      (match d.rhs with
       | some (.str s) => s != ""
       | _ => true) &&
      ((stringValuesOpt d.rhs).filter (fun v => v != "")).length > 0

/-- The raw text of a workspace file, abstracted to whether `JSON.parse`
succeeds on it and, when it does, to the parsed tree. -/
inductive RawFile where
  | parsable (v : JsonValue)
  | malformed
  deriving Repr

/-- The two status-bar states the module drives:
`updateState(Running, …)` and `setIdle()`. -/
inductive StatusBarState where
  | Running
  | Idle
  deriving Repr, DecidableEq

/-- A recorded call to the external translation provider:
the values sent, the source locale and the target locale. -/
structure ProviderCall where
  values : List JsonValue
  sourceLanguage : String
  targetLanguage : String
  deriving Repr

/-- The observable world the pipeline acts on.  `fs` is the workspace file
system, `store` the `TranslationStore` content cache, `locks` the
`FileLockStore`, `trackedFiles` the `FileLocationStore` file list,
`statusHistory` the status-bar updates in order, `providerCalls` and
`writeLog` the outward traffic, `errorLogs` the number of error-level log
lines.  The lock, location and status collaborators are not part of this
snapshot; they are modelled from the spec as the plain collections their
published operations describe. -/
structure St where
  fs : List (String × RawFile)
  store : List (String × JsonValue)
  locks : List String
  trackedFiles : List String
  statusHistory : List StatusBarState
  providerCalls : List ProviderCall
  writeLog : List String
  errorLogs : Nat
  deriving Repr

/-- The pure collaborators of one event.  `basename` and `localeOf` are
modelled from the spec: the path-convention helpers
(`path.basename`, `extractLocaleFromFileUri`) are not part of this
snapshot.  `provider` is `TranslationService.translateKeysAsync`; `none`
models a thrown provider error. -/
structure PipelineEnv where
  basename : String → String
  localeOf : String → String
  provider : List JsonValue → String → String → Option (List JsonValue)

/-- The change context handed to the module: the originating file and its
new raw text (`none` models both an absent and an empty `jsonContent`,
the two falsy cases of `!context.jsonContent`). -/
structure TranslationModuleContext where
  inputPath : String
  jsonContent : Option RawFile

/-- `TranslationStore.getTranslationFileDiffs`: diff the cached content of
the path (an untracked path counts as the empty object) against the newly
parsed content. -/
def getTranslationFileDiffs (store : List (String × JsonValue)) (path : String)
    (newJson : JsonValue) : List DiffEntry :=
  diffVal [] ((alistGet path store).getD (.obj [])) newJson

/-- Modelled from the spec: `FileLocationStore.addOrUpdateFile`
(not part of this snapshot) registers the file's path in the location
index. -/
def registerFile (tracked : List String) (path : String) : List String :=
  if tracked.contains path then tracked else tracked ++ [path]

/-- `TranslationModule.findRelatedFiles`: the sibling locale files — every
tracked file other than the current one that shares its base name. -/
def findRelatedFiles (env : PipelineEnv) (tracked : List String)
    (currentFilePath : String) : List String :=
  tracked.filter fun f =>
    f != currentFilePath && env.basename f == env.basename currentFilePath

/-- The test `currentValue === undefined || currentValue === null ||
currentValue === ''` of `TranslationModule.translateChanges`. -/
def emptyish : Option JsonValue → Bool
  | none => true
  | some .null => true
  | some (.str s) => s == ""
  | some _ => false

/-- The per-sibling candidate filter inside
`TranslationModule.translateChanges`: keep the entries whose path
currently resolves, in the sibling's tree, to `undefined`, `null` or the
empty string. -/
def candidateFilter (content : JsonValue) (changes : List DiffEntry) : List DiffEntry :=
  changes.filter fun c => emptyish (getValueAtPath content c.path)

/-- Map the provider's results back positionally onto the candidate
entries: entry `i` gets `translatedValues[i]` as its new `rhs` (an absent
position is JavaScript `undefined`, i.e. `none`). -/
def assignTranslations : List DiffEntry → List JsonValue → List DiffEntry
  | [], _ => []
  | c :: cs, tvs => { c with rhs := tvs.head? } :: assignTranslations cs tvs.tail

/-- `TranslationModule.translateChanges`: for each sibling, read and parse
its current content, filter the changes down to the candidate paths, and
when any remain call the provider once and record the assignment list
under the sibling's target language.  A read or parse failure and a
provider failure are uncaught here (`Except.error`); they abort the loop
and carry the state as it stood. -/
def translateChanges (env : PipelineEnv) (sourceLanguage : String)
    (changes : List DiffEntry) :
    List String → St → List (String × List DiffEntry) →
    Except St (St × List (String × List DiffEntry))
  | [], st, acc => .ok (st, acc)
  | targetFile :: rest, st, acc =>
    let targetLanguage := env.localeOf targetFile
    match alistGet targetFile st.fs with
    | none => .error st
    | some .malformed => .error st
    | some (.parsable fileContent) =>
      let changesToTranslate := candidateFilter fileContent changes
      if changesToTranslate.isEmpty then
        translateChanges env sourceLanguage changes rest st acc
      else
        let valuesToTranslate := changesToTranslate.map (fun c => c.rhs.getD .null)
        let st1 := { st with providerCalls := st.providerCalls ++
          [{ values := valuesToTranslate, sourceLanguage, targetLanguage }] }
        match env.provider valuesToTranslate sourceLanguage targetLanguage with
        | none => .error st1
        | some translatedValues =>
          translateChanges env sourceLanguage changes rest st1
            (alistSet targetLanguage (assignTranslations changesToTranslate translatedValues) acc)

/-- The `forEach` body of `TranslationModule.applyDiffsToJSON`: a Deleted
entry unsets its dot-joined path; an Edited or Array entry is applied only
where its path currently resolves to a defined value; an Added (`N`) entry
falls through both branches and is not applied. -/
def applyOneDiff (t : JsonValue) (change : DiffEntry) : JsonValue :=
  match change.kind with
  | .D =>
    let joined := String.intercalate "." change.path
    if joined == "" then t else lodashUnset t joined
  | .E | .A =>
    match getValueAtPath t change.path with
    | some _ => setAtPath t change.path (change.rhs.getD .null)
    | none => t
  | .N => t

/-- `TranslationModule.applyDiffsToJSON`: fold `applyOneDiff` over the
assigned entries (the JavaScript `forEach` mutates `target` in place). -/
def applyDiffsToJSON (target : JsonValue) (diffs : List DiffEntry) : JsonValue :=
  diffs.foldl applyOneDiff target

/-- `TranslationModule.applyTranslationsToFiles`: for each sibling, skip
it if a lock is held; re-read and re-parse it, logging and skipping it on
failure; apply the language's assigned entries; then lock, write,
update the `TranslationStore` entry (the scheduled lock release falls
after the event, so the lock stays held here). -/
def applyTranslationsToFiles (env : PipelineEnv) :
    List String → List (String × List DiffEntry) → St → St
  | [], _, st => st
  | fileUri :: rest, translationsByLanguage, st =>
    if st.locks.contains fileUri then
      applyTranslationsToFiles env rest translationsByLanguage st
    else
      match alistGet fileUri st.fs with
      | none =>
        applyTranslationsToFiles env rest translationsByLanguage
          { st with errorLogs := st.errorLogs + 1 }
      | some .malformed =>
        applyTranslationsToFiles env rest translationsByLanguage
          { st with errorLogs := st.errorLogs + 1 }
      | some (.parsable fileContent) =>
        let targetLanguage := env.localeOf fileUri
        let newContent :=
          match alistGet targetLanguage translationsByLanguage with
          | none => fileContent
          | some diffs => applyDiffsToJSON fileContent diffs
        applyTranslationsToFiles env rest translationsByLanguage
          { st with
            locks := st.locks ++ [fileUri]
            fs := alistSet fileUri (.parsable newContent) st.fs
            writeLog := st.writeLog ++ [fileUri]
            store := alistSet fileUri newContent st.store }

/-- `TranslationModule.doExecuteAsync`: bail out on missing content or no
diffs; register the file in the location index; bail out when no change
is relevant; set the status bar to Running; translate and apply across
the siblings; commit the originating file's new content to the
`TranslationStore`; on any error log and stop; always finish by setting
the status bar to Idle.  A parse failure of the originating content
happens before the `try` block and escapes (`Except.error`). -/
def doExecuteAsync (env : PipelineEnv) (ctx : TranslationModuleContext) (st : St) :
    Except St St :=
  match ctx.jsonContent with
  | none => .ok st
  | some .malformed => .error st
  | some (.parsable newJson) =>
    let diffs := getTranslationFileDiffs st.store ctx.inputPath newJson
    if diffs.isEmpty then .ok st
    else
      let stA := { st with trackedFiles := registerFile st.trackedFiles ctx.inputPath }
      let changesToTranslate := extractRelevantChanges diffs
      if changesToTranslate.isEmpty then .ok stA
      else
        let stB := { st with
          trackedFiles := registerFile st.trackedFiles ctx.inputPath
          statusHistory := st.statusHistory ++ [.Running] }
        let sourceLanguage := env.localeOf ctx.inputPath
        let otherFiles := findRelatedFiles env stB.trackedFiles ctx.inputPath
        match translateChanges env sourceLanguage changesToTranslate otherFiles stB [] with
        | .error stE =>
          .ok { stE with
            errorLogs := stE.errorLogs + 1
            statusHistory := stE.statusHistory ++ [.Idle] }
        | .ok (st1, translationsByLanguage) =>
          let st2 := applyTranslationsToFiles env otherFiles translationsByLanguage st1
          .ok { st2 with
            store := alistSet ctx.inputPath newJson st2.store
            statusHistory := st2.statusHistory ++ [.Idle] }

/-- The state after one change event, whether `doExecuteAsync` completed
or an exception escaped it. -/
def doExecuteRun (env : PipelineEnv) (ctx : TranslationModuleContext) (st : St) : St :=
  match doExecuteAsync env ctx st with
  | .ok st' => st'
  | .error st' => st'

/-- `BaseActionModule`: an action module is its `doExecute` logic plus an
optional successor set by `setNext`.  The context is read-only here; the
module's effects act on a state of type `σ`. -/
inductive ActionModule (σ : Type) where
  | node (doExec : TranslationModuleContext → σ → σ) (next : Option (ActionModule σ))

/-- `BaseActionModule.execute`: run the module's own logic, then, when a
successor is set, forward the same context to it. -/
def ActionModule.execute {σ : Type} : ActionModule σ → TranslationModuleContext → σ → σ
  | .node doExec next, ctx, st =>
    let st1 := doExec ctx st
    match next with
    | some n => n.execute ctx st1
    | none => st1

/-- Build the linked chain `h.setNext(chainOf …)` from a head handler and
the list of its successors. -/
def chainOf {σ : Type} (doExec : TranslationModuleContext → σ → σ) :
    List (TranslationModuleContext → σ → σ) → ActionModule σ
  | [] => .node doExec none
  | h :: rest => .node doExec (some (chainOf h rest))

/-- Modelled from the spec: the change-handler capability
`process(context) → continue?` — a handler returns its state effect and a
continuation flag, and the chain forwards only on `true`. -/
def specProcessChain {σ : Type} :
    List (TranslationModuleContext → σ → σ × Bool) → TranslationModuleContext → σ → σ
  | [], _, st => st
  | h :: rest, ctx, st =>
    match h ctx st with
    | (st1, true) => specProcessChain rest ctx st1
    | (st1, false) => st1

/-- Modelled from the spec: `FileLockStore` tracks the paths with an
in-flight programmatic write; `has(path)` tests membership.  The store's
source is not part of this snapshot. -/
structure FileLockStoreState where
  locks : List String

/-- `FileLockStore.hasFileLock`. -/
def FileLockStoreState.hasFileLock (s : FileLockStoreState) (uri : String) : Bool :=
  s.locks.contains uri

/-- The `onDidChange` callback that
`FileWatcherCreator.createFileWatchersForFilesMatchingGlobAsync` registers
on each watcher (both copies of the file install the same logic): if some
disable flag returns true the event is dropped, otherwise the file-change
handler chain is invoked on the changed path. -/
def onDidChangeCallback {σ : Type} (disableFlags : List Bool)
    (handleFileChangeAsync : String → σ → σ) (uri : String) (st : σ) : σ :=
  if disableFlags.any (fun b => b) then st else handleFileChangeAsync uri st

/-- Boolean prefix test on key paths. -/
def isPre : List String → List String → Bool
  | [], _ => true
  | _ :: _, [] => false
  | a :: p, b :: q => a == b && isPre p q

/-- The state a `translateChanges` call ends in, whether it returned or
threw. -/
def exceptState : Except St (St × List (String × List DiffEntry)) → St
  | .error stE => stE
  | .ok (st1, _) => st1

/-- Whether a stored file currently holds parsable JSON. -/
def isParsableIn (fs : List (String × RawFile)) (g : String) : Bool :=
  match alistGet g fs with
  | some (.parsable _) => true
  | _ => false

/-- Modelled from the spec: the relevance criterion in the spec's own
words — kind Added or Edited, new value non-empty, and an object value
must contain at least one non-empty string leaf. -/
def specRelevant (d : DiffEntry) : Bool :=
  (d.kind == DKind.N || d.kind == DKind.E) &&
    match d.rhs with
    | some (.str s) => s != ""
    | some (.obj fs) => (collectStrings fs).any (fun v => v != "")
    | _ => false

/-- Locale of a path in the concrete scenarios — the path convention
`<locale>/<namespace>.json` tabulated over the paths the scenarios use. -/
def exLocaleOf (p : String) : String :=
  if p == "en/common.json" then "en"
  else if p == "fr/common.json" then "fr"
  else if p == "fr/a/common.json" then "fr"
  else if p == "fr/b/common.json" then "fr"
  else if p == "en/x.json" then "en"
  else if p == "fr/x.json" then "fr"
  else if p == "de/x.json" then "de"
  else ""

/-- Base name of a path in the concrete scenarios, tabulated likewise. -/
def exBasename (p : String) : String :=
  if p == "en/common.json" || p == "fr/common.json" ||
      p == "fr/a/common.json" || p == "fr/b/common.json" then "common.json"
  else if p == "en/x.json" || p == "fr/x.json" || p == "de/x.json" then "x.json"
  else p

/-- A provider for the end-to-end scenario: `"Cancel"` translates to
`"Annuler"`, anything else passes through. -/
def c1Provider : List JsonValue → String → String → Option (List JsonValue) :=
  fun vs _ _ => some (vs.map fun v =>
    match v with
    | .str "Cancel" => .str "Annuler"
    | x => x)

def c1Env : PipelineEnv :=
  { basename := exBasename, localeOf := exLocaleOf, provider := c1Provider }

def c1OldEn : JsonValue := .obj [("common", .obj [("save", .str "Save")])]

def c1NewEn : JsonValue :=
  .obj [("common", .obj [("save", .str "Save"), ("cancel", .str "Cancel")])]

def c1Fr : JsonValue := .obj [("common", .obj [("save", .str "Sauvegarder")])]

def c1St : St :=
  { fs := [("en/common.json", .parsable c1NewEn), ("fr/common.json", .parsable c1Fr)]
    store := [("en/common.json", c1OldEn)]
    locks := []
    trackedFiles := ["en/common.json", "fr/common.json"]
    statusHistory := []
    providerCalls := []
    writeLog := []
    errorLogs := 0 }

def c1Ctx : TranslationModuleContext :=
  { inputPath := "en/common.json", jsonContent := some (.parsable c1NewEn) }

/-- A provider for the locale-collision scenario: `"Cancel2"` translates
to `"Annuler2"`. -/
def c2xProvider : List JsonValue → String → String → Option (List JsonValue) :=
  fun vs _ _ => some (vs.map fun v =>
    match v with
    | .str "Cancel2" => .str "Annuler2"
    | x => x)

def c2xEnv : PipelineEnv :=
  { basename := exBasename, localeOf := exLocaleOf, provider := c2xProvider }

def c2xSt : St :=
  { fs := [("en/common.json", .parsable (.obj [("k", .str "Cancel2")])),
           ("fr/a/common.json", .parsable (.obj [("k", .str "DejaLa")])),
           ("fr/b/common.json", .parsable (.obj [("k", .str "")]))]
    store := [("en/common.json", .obj [("k", .str "Cancel")])]
    locks := []
    trackedFiles := ["en/common.json", "fr/a/common.json", "fr/b/common.json"]
    statusHistory := []
    providerCalls := []
    writeLog := []
    errorLogs := 0 }

def c2xCtx : TranslationModuleContext :=
  { inputPath := "en/common.json",
    jsonContent := some (.parsable (.obj [("k", .str "Cancel2")])) }

def c6Env : PipelineEnv :=
  { basename := exBasename, localeOf := exLocaleOf, provider := fun vs _ _ => some vs }

def c6NewEn : JsonValue := .obj [("k", .str "Hello")]

def c6St : St :=
  { fs := [("en/x.json", .parsable c6NewEn), ("fr/x.json", .malformed),
           ("de/x.json", .parsable (.obj []))]
    store := [("en/x.json", .obj [])]
    locks := []
    trackedFiles := ["en/x.json", "fr/x.json", "de/x.json"]
    statusHistory := []
    providerCalls := []
    writeLog := []
    errorLogs := 0 }

/-- `c6St` with the malformed sibling absent. -/
def c6StNoFr : St :=
  { fs := [("en/x.json", .parsable c6NewEn), ("de/x.json", .parsable (.obj []))]
    store := [("en/x.json", .obj [])]
    locks := []
    trackedFiles := ["en/x.json", "de/x.json"]
    statusHistory := []
    providerCalls := []
    writeLog := []
    errorLogs := 0 }

def c6Ctx : TranslationModuleContext :=
  { inputPath := "en/x.json", jsonContent := some (.parsable c6NewEn) }

def c4St : St :=
  { fs := [("en/common.json", .parsable c1OldEn)]
    store := [("en/common.json", c1OldEn)]
    locks := []
    trackedFiles := ["en/common.json"]
    statusHistory := []
    providerCalls := []
    writeLog := []
    errorLogs := 0 }

/-- A context whose content equals the cached content: the translation
module finds no diffs and returns without doing anything — the spec's own
example of a stage signaling non-continuation. -/
def c4Ctx : TranslationModuleContext :=
  { inputPath := "en/common.json", jsonContent := some (.parsable c1OldEn) }

/-- The translation module as a chain handler. -/
def translationHandler : TranslationModuleContext → St → St :=
  fun c st => doExecuteRun c1Env c st

/-- A successor handler leaving a visible mark. -/
def markerHandler : TranslationModuleContext → St → St :=
  fun _ st => { st with writeLog := st.writeLog ++ ["successor-ran"] }

def c5Locks : FileLockStoreState := { locks := ["fr/common.json"] }

def c3St : St :=
  { fs := [("en/x.json", .parsable (.obj []))]
    store := [("en/x.json", .obj [("k", .str "x")])]
    locks := []
    trackedFiles := ["en/x.json"]
    statusHistory := []
    providerCalls := []
    writeLog := []
    errorLogs := 0 }

def c3Ctx : TranslationModuleContext :=
  { inputPath := "en/x.json", jsonContent := some (.parsable (.obj [])) }

def c7Env : PipelineEnv :=
  { basename := exBasename, localeOf := exLocaleOf, provider := fun _ _ _ => none }

/-- The state in which the failing provider call throws in the concrete
scenario: status Running, one provider call logged, nothing else moved. -/
def c7StE : St :=
  { fs := [("en/common.json", .parsable c1NewEn), ("fr/common.json", .parsable c1Fr)]
    store := [("en/common.json", c1OldEn)]
    locks := []
    trackedFiles := ["en/common.json", "fr/common.json"]
    statusHistory := [StatusBarState.Running]
    providerCalls := [{ values := [.str "Cancel"], sourceLanguage := "en",
                        targetLanguage := "fr" }]
    writeLog := []
    errorLogs := 0 }

def c9Entry : DiffEntry :=
  { kind := .N, path := ["k"], lhs := none, rhs := some (.num 5) }

theorem alistGet_set_self {α : Type} (k : String) (v : α) (l : List (String × α)) :
    alistGet k (alistSet k v l) = some v := by
  induction l with
  | nil => simp [alistGet, alistSet]
  | cons hd tl ih =>
    obtain ⟨m, w⟩ := hd
    by_cases h : m = k
    · simp [alistGet, alistSet, h]
    · simp only [alistSet, alistGet, beq_iff_eq, if_neg h]
      exact ih

theorem alistGet_set_ne {α : Type} (k k' : String) (v : α) (l : List (String × α))
    (h : k ≠ k') : alistGet k (alistSet k' v l) = alistGet k l := by
  induction l with
  | nil =>
    simp only [alistSet, alistGet, beq_iff_eq]
    rw [if_neg (Ne.symm h)]
  | cons hd tl ih =>
    obtain ⟨m, w⟩ := hd
    by_cases hm : m = k'
    · have hmk : ¬ m = k := fun hh => h (hh.symm.trans hm)
      simp only [alistSet, beq_iff_eq, if_pos hm, alistGet, if_neg hmk]
    · simp only [alistSet, beq_iff_eq, if_neg hm, alistGet]
      by_cases hk : m = k
      · rw [if_pos hk, if_pos hk]
      · rw [if_neg hk, if_neg hk]
        exact ih

theorem alistGet_append {α : Type} (k : String) (l l' : List (String × α)) :
    alistGet k (l ++ l') =
      match alistGet k l with
      | some v => some v
      | none => alistGet k l' := by
  induction l with
  | nil => simp [alistGet]
  | cons hd tl ih =>
    obtain ⟨m, w⟩ := hd
    by_cases h : m = k
    · simp [alistGet, h]
    · simpa [alistGet, h] using ih

theorem getValueAtPath_append (p q : List String) : ∀ (v : JsonValue),
    getValueAtPath v (p ++ q) =
      match getValueAtPath v p with
      | some w => getValueAtPath w q
      | none => none := by
  induction p with
  | nil => intro v; simp [getValueAtPath]
  | cons k p' ih =>
    intro v
    cases v with
    | obj fs =>
      simp only [List.cons_append, getValueAtPath]
      cases alistGet k fs with
      | some w => exact ih w
      | none => rfl
    | str s => cases q <;> rfl
    | num n => cases q <;> rfl
    | bool b => cases q <;> rfl
    | null => cases q <;> rfl

theorem isPre_iff (p : List String) : ∀ q, isPre p q = true ↔ ∃ r, q = p ++ r := by
  induction p with
  | nil => intro q; simp [isPre]
  | cons a p' ih =>
    intro q
    cases q with
    | nil =>
      simp only [isPre, List.cons_append]
      constructor
      · intro h; cases h
      · rintro ⟨r, hr⟩; cases hr
    | cons b q' =>
      simp only [isPre, Bool.and_eq_true, beq_iff_eq, ih q', List.cons_append]
      constructor
      · rintro ⟨rfl, r, rfl⟩; exact ⟨r, rfl⟩
      · rintro ⟨r, hr⟩
        injection hr with h1 h2
        exact ⟨h1.symm, r, h2⟩

theorem emptyish_extend (v : JsonValue) (p r : List String)
    (h : emptyish (getValueAtPath v p) = true) (hr : r ≠ []) :
    getValueAtPath v (p ++ r) = none := by
  rw [getValueAtPath_append]
  cases hv : getValueAtPath v p with
  | none => rfl
  | some w =>
    rw [hv] at h
    cases r with
    | nil => exact absurd rfl hr
    | cons b r' =>
      cases w with
      | null => rfl
      | str s => rfl
      | num n => simp [emptyish] at h
      | bool bb => simp [emptyish] at h
      | obj fs => simp [emptyish] at h

theorem str_extend (v : JsonValue) (q r : List String) (s : String)
    (h : getValueAtPath v q = some (.str s)) (hr : r ≠ []) :
    getValueAtPath v (q ++ r) = none := by
  rw [getValueAtPath_append, h]
  cases r with
  | nil => exact absurd rfl hr
  | cons b r' => rfl

theorem getValueAtPath_setAtPath_frame (p : List String) :
    ∀ (q : List String) (v x : JsonValue),
      isPre p q = false → isPre q p = false →
      getValueAtPath (setAtPath v p x) q = getValueAtPath v q := by
  induction p with
  | nil => intro q v x hpq _; simp [isPre] at hpq
  | cons a p' ih =>
    intro q v x hpq hqp
    cases q with
    | nil => simp [isPre] at hqp
    | cons b q' =>
      cases v with
      | str s => rfl
      | num n => rfl
      | bool bb => rfl
      | null => rfl
      | obj fs =>
        by_cases hab : a = b
        · subst hab
          have hpq' : isPre p' q' = false := by
            cases hh : isPre p' q' with
            | false => rfl
            | true => rw [isPre, hh] at hpq; simp at hpq
          have hqp' : isPre q' p' = false := by
            cases hh : isPre q' p' with
            | false => rfl
            | true => rw [isPre, hh] at hqp; simp at hqp
          simp only [setAtPath]
          cases hget : alistGet a fs with
          | some w =>
            simp only [getValueAtPath, alistGet_set_self, hget]
            exact ih q' w x hpq' hqp'
          | none =>
            simp only [getValueAtPath, alistGet_append, hget]
            simp only [alistGet, if_pos (by simp : (a == a) = true)]
            rw [ih q' (.obj []) x hpq' hqp']
            cases q' with
            | nil => simp [isPre] at hqp'
            | cons c q'' => simp [getValueAtPath, alistGet]
        · simp only [setAtPath]
          cases hget : alistGet a fs with
          | some w =>
            simp only [getValueAtPath]
            rw [alistGet_set_ne b a _ _ (fun hh => hab hh.symm)]
          | none =>
            simp only [getValueAtPath, alistGet_append]
            cases hb : alistGet b fs with
            | some u => rfl
            | none =>
              simp [alistGet, hab]

theorem applyOneDiff_preserves (w t : JsonValue) (q : List String) (s : String)
    (d : DiffEntry) (hs : s ≠ "")
    (hwq : getValueAtPath w q = some (.str s))
    (hkind : d.kind = .N ∨ d.kind = .E)
    (hempty : emptyish (getValueAtPath w d.path) = true)
    (ht : getValueAtPath t q = some (.str s)) :
    getValueAtPath (applyOneDiff t d) q = some (.str s) := by
  obtain ⟨kind, path, lhs0, rhs0⟩ := d
  simp only at hkind hempty ⊢
  cases kind with
  | D => rcases hkind with h | h <;> cases h
  | A => rcases hkind with h | h <;> cases h
  | N => simpa [applyOneDiff] using ht
  | E =>
    simp only [applyOneDiff]
    cases hgv : getValueAtPath t path with
    | none => exact ht
    | some u =>
      have hpq : isPre path q = false := by
        cases hh : isPre path q with
        | false => rfl
        | true =>
          obtain ⟨r, rfl⟩ := (isPre_iff path q).mp hh
          cases r with
          | nil =>
            rw [List.append_nil] at hwq
            rw [hwq] at hempty
            simp [emptyish] at hempty
            exact absurd hempty hs
          | cons b r' =>
            rw [emptyish_extend w path (b :: r') hempty (by simp)] at hwq
            cases hwq
      have hqp : isPre q path = false := by
        cases hh : isPre q path with
        | false => rfl
        | true =>
          obtain ⟨r, hr⟩ := (isPre_iff q path).mp hh
          cases r with
          | nil =>
            rw [List.append_nil] at hr
            subst hr
            rw [hwq] at hempty
            simp [emptyish] at hempty
            exact absurd hempty hs
          | cons b r' =>
            rw [hr, str_extend t q (b :: r') s ht (by simp)] at hgv
            cases hgv
      rw [getValueAtPath_setAtPath_frame path q t _ hpq hqp]
      exact ht

theorem applyDiffsToJSON_preserves (w : JsonValue) (q : List String) (s : String)
    (hs : s ≠ "") (hwq : getValueAtPath w q = some (.str s)) :
    ∀ (ds : List DiffEntry) (t : JsonValue),
      (∀ d ∈ ds, (d.kind = .N ∨ d.kind = .E) ∧
        emptyish (getValueAtPath w d.path) = true) →
      getValueAtPath t q = some (.str s) →
      getValueAtPath (applyDiffsToJSON t ds) q = some (.str s) := by
  intro ds
  induction ds with
  | nil => intro t _ ht; exact ht
  | cons d ds' ih =>
    intro t hds ht
    have hd := hds d (List.mem_cons_self _ _)
    have hstep := applyOneDiff_preserves w t q s d hs hwq hd.1 hd.2 ht
    have : applyDiffsToJSON t (d :: ds') = applyDiffsToJSON (applyOneDiff t d) ds' := rfl
    rw [this]
    exact ih (applyOneDiff t d) (fun e he => hds e (List.mem_cons_of_mem _ he)) hstep

theorem applyT_fs_untouched (env : PipelineEnv) (f : String) :
    ∀ (files : List String) (tl : List (String × List DiffEntry)) (st : St),
      f ∉ files →
      alistGet f (applyTranslationsToFiles env files tl st).fs = alistGet f st.fs := by
  intro files
  induction files with
  | nil => intro tl st _; rfl
  | cons g rest ih =>
    intro tl st hf
    have hfg : f ≠ g := fun h => hf (h ▸ List.mem_cons_self g rest)
    have hfr : f ∉ rest := fun h => hf (List.mem_cons_of_mem g h)
    simp only [applyTranslationsToFiles]
    by_cases hlock : st.locks.contains g
    · rw [if_pos hlock]; exact ih tl st hfr
    · rw [if_neg hlock]
      cases hget : alistGet g st.fs with
      | none => exact ih tl _ hfr
      | some raw =>
        cases raw with
        | malformed => exact ih tl _ hfr
        | parsable content =>
          rw [ih tl _ hfr]
          simp only
          exact alistGet_set_ne f g _ _ hfg

theorem applyT_protected (env : PipelineEnv) (f : String) (q : List String)
    (s : String) (w : JsonValue) (hs : s ≠ "")
    (hwq : getValueAtPath w q = some (.str s)) :
    ∀ (files : List String) (tl : List (String × List DiffEntry)) (st : St),
      files.Nodup →
      alistGet f st.fs = some (.parsable w) →
      (∀ ds, alistGet (env.localeOf f) tl = some ds →
        ∀ d ∈ ds, (d.kind = .N ∨ d.kind = .E) ∧
          emptyish (getValueAtPath w d.path) = true) →
      ∃ w', alistGet f (applyTranslationsToFiles env files tl st).fs =
              some (.parsable w') ∧
            getValueAtPath w' q = some (.str s) := by
  intro files
  induction files with
  | nil => intro tl st _ hf _; exact ⟨w, hf, hwq⟩
  | cons g rest ih =>
    intro tl st hnd hf htl
    have hndr : rest.Nodup := hnd.of_cons
    simp only [applyTranslationsToFiles]
    by_cases hlock : st.locks.contains g
    · rw [if_pos hlock]; exact ih tl st hndr hf htl
    · rw [if_neg hlock]
      by_cases hgf : g = f
      · subst hgf
        rw [hf]
        simp only
        have hrest : g ∉ rest := (List.nodup_cons.mp hnd).1
        set newContent :=
          match alistGet (env.localeOf g) tl with
          | none => w
          | some diffs => applyDiffsToJSON w diffs with hnc
        have hpres : getValueAtPath newContent q = some (.str s) := by
          rw [hnc]
          cases hds : alistGet (env.localeOf g) tl with
          | none => exact hwq
          | some ds =>
            exact applyDiffsToJSON_preserves w q s hs hwq ds w (htl ds hds) hwq
        refine ⟨newContent, ?_, hpres⟩
        rw [applyT_fs_untouched env g rest tl _ hrest]
        simp only
        exact alistGet_set_self g _ _
      · cases hget : alistGet g st.fs with
        | none => exact ih tl _ hndr hf htl
        | some raw =>
          cases raw with
          | malformed => exact ih tl _ hndr hf htl
          | parsable content =>
            refine ih tl _ hndr ?_ htl
            simp only
            rw [alistGet_set_ne f g _ _ (fun h => hgf h.symm)]
            exact hf

/-- Everything `translateChanges` may change in the state is the
provider-call log; on both normal and thrown exits the file system, the
stores, the locks, the status history and the logs are as they were. -/
theorem translateChanges_state_inv (env : PipelineEnv) (src : String)
    (changes : List DiffEntry) :
    ∀ (files : List String) (st : St) (acc : List (String × List DiffEntry)),
      (exceptState (translateChanges env src changes files st acc)).fs = st.fs ∧
      (exceptState (translateChanges env src changes files st acc)).store = st.store ∧
      (exceptState (translateChanges env src changes files st acc)).writeLog = st.writeLog ∧
      (exceptState (translateChanges env src changes files st acc)).locks = st.locks ∧
      (exceptState (translateChanges env src changes files st acc)).trackedFiles = st.trackedFiles ∧
      (exceptState (translateChanges env src changes files st acc)).statusHistory = st.statusHistory ∧
      (exceptState (translateChanges env src changes files st acc)).errorLogs = st.errorLogs := by
  intro files
  induction files with
  | nil =>
    intro st acc
    exact ⟨rfl, rfl, rfl, rfl, rfl, rfl, rfl⟩
  | cons g rest ih =>
    intro st acc
    simp only [translateChanges]
    cases hget : alistGet g st.fs with
    | none => exact ⟨rfl, rfl, rfl, rfl, rfl, rfl, rfl⟩
    | some raw =>
      cases raw with
      | malformed => exact ⟨rfl, rfl, rfl, rfl, rfl, rfl, rfl⟩
      | parsable content =>
        simp only
        by_cases hempty : (candidateFilter content changes).isEmpty
        · rw [if_pos hempty]; exact ih st acc
        · rw [if_neg hempty]
          cases hprov : env.provider ((candidateFilter content changes).map
              (fun c => c.rhs.getD .null)) src (env.localeOf g) with
          | none => exact ⟨rfl, rfl, rfl, rfl, rfl, rfl, rfl⟩
          | some tvs =>
            simpa using ih { st with providerCalls := st.providerCalls ++
              [{ values := (candidateFilter content changes).map
                   (fun c => c.rhs.getD .null),
                 sourceLanguage := src, targetLanguage := env.localeOf g }] }
              (alistSet (env.localeOf g)
                (assignTranslations (candidateFilter content changes) tvs) acc)

/-- On a normal exit, every assignment list recorded by `translateChanges`
under a target language is the candidate-filtered change list of some
processed sibling of that language, with the provider's results assigned
positionally. -/
theorem translateChanges_ok_tl (env : PipelineEnv) (src : String)
    (changes : List DiffEntry) :
    ∀ (files : List String) (st : St) (acc : List (String × List DiffEntry))
      (st1 : St) (tl : List (String × List DiffEntry)),
      translateChanges env src changes files st acc = .ok (st1, tl) →
      ∀ L ds, alistGet L tl = some ds →
        alistGet L acc = some ds ∨
        ∃ g, g ∈ files ∧ env.localeOf g = L ∧
          ∃ cg tvs, alistGet g st.fs = some (.parsable cg) ∧
            ds = assignTranslations (candidateFilter cg changes) tvs := by
  intro files
  induction files with
  | nil =>
    intro st acc st1 tl h L ds hds
    simp only [translateChanges] at h
    injection h with h'
    injection h' with h1 h2
    subst h2
    exact Or.inl hds
  | cons g rest ih =>
    intro st acc st1 tl h L ds hds
    simp only [translateChanges] at h
    cases hget : alistGet g st.fs with
    | none => rw [hget] at h; cases h
    | some raw =>
      cases raw with
      | malformed => rw [hget] at h; cases h
      | parsable content =>
        rw [hget] at h
        simp only at h
        by_cases hempty : (candidateFilter content changes).isEmpty
        · rw [if_pos hempty] at h
          rcases ih st acc st1 tl h L ds hds with hacc | ⟨g', hg', hrest⟩
          · exact Or.inl hacc
          · exact Or.inr ⟨g', List.mem_cons_of_mem g hg', hrest⟩
        · rw [if_neg hempty] at h
          cases hprov : env.provider ((candidateFilter content changes).map
              (fun c => c.rhs.getD .null)) src (env.localeOf g) with
          | none => rw [hprov] at h; cases h
          | some tvs =>
            rw [hprov] at h
            rcases ih _ _ st1 tl h L ds hds with hacc | ⟨g', hg', hL, cg, tvs', hcg, hds'⟩
            · by_cases hLg : L = env.localeOf g
              · subst hLg
                rw [alistGet_set_self] at hacc
                injection hacc with hacc'
                exact Or.inr ⟨g, List.mem_cons_self g rest, rfl,
                  content, tvs, hget, hacc'.symm⟩
              · rw [alistGet_set_ne L (env.localeOf g) _ _ hLg] at hacc
                exact Or.inl hacc
            · refine Or.inr ⟨g', List.mem_cons_of_mem g hg', hL, cg, tvs', ?_, hds'⟩
              simpa using hcg

/-- Assigning provider results only rewrites `rhs`; kind and path of each
entry survive. -/
theorem assignTranslations_mem :
    ∀ (cs : List DiffEntry) (tvs : List JsonValue) (d : DiffEntry),
      d ∈ assignTranslations cs tvs →
      ∃ c, c ∈ cs ∧ d.path = c.path ∧ d.kind = c.kind := by
  intro cs
  induction cs with
  | nil => intro tvs d h; cases h
  | cons c cs' ih =>
    intro tvs d h
    rcases List.mem_cons.mp h with h | h
    · exact ⟨c, List.mem_cons_self c cs', by rw [h], by rw [h]⟩
    · obtain ⟨c', hc', h1, h2⟩ := ih tvs.tail d h
      exact ⟨c', List.mem_cons_of_mem c hc', h1, h2⟩

theorem candidateFilter_mem (content : JsonValue) (changes : List DiffEntry)
    (c : DiffEntry) (h : c ∈ candidateFilter content changes) :
    c ∈ changes ∧ emptyish (getValueAtPath content c.path) = true :=
  List.mem_filter.mp h

theorem extractRelevantChanges_kind (diffs : List DiffEntry) (d : DiffEntry)
    (h : d ∈ extractRelevantChanges diffs) : d.kind = .N ∨ d.kind = .E := by
  have := (List.mem_filter.mp h).2
  simp only [Bool.and_eq_true, Bool.or_eq_true, beq_iff_eq] at this
  exact this.1.1

theorem findRelatedFiles_register (env : PipelineEnv) (tracked : List String)
    (p : String) :
    findRelatedFiles env (registerFile tracked p) p = findRelatedFiles env tracked p := by
  unfold registerFile
  by_cases h : tracked.contains p
  · rw [if_pos h]
  · rw [if_neg h]
    unfold findRelatedFiles
    rw [List.filter_append]
    simp

/-- Unfolding of `doExecuteAsync` on the main path: content parses, diffs
exist, and some change is relevant. -/
theorem doExecuteAsync_main (env : PipelineEnv) (ctx : TranslationModuleContext)
    (st : St) (newJson : JsonValue)
    (hj : ctx.jsonContent = some (.parsable newJson))
    (hd : (getTranslationFileDiffs st.store ctx.inputPath newJson).isEmpty = false)
    (hc : (extractRelevantChanges
        (getTranslationFileDiffs st.store ctx.inputPath newJson)).isEmpty = false) :
    doExecuteAsync env ctx st =
      (match translateChanges env (env.localeOf ctx.inputPath)
          (extractRelevantChanges (getTranslationFileDiffs st.store ctx.inputPath newJson))
          (findRelatedFiles env (registerFile st.trackedFiles ctx.inputPath) ctx.inputPath)
          { st with trackedFiles := registerFile st.trackedFiles ctx.inputPath,
                    statusHistory := st.statusHistory ++ [StatusBarState.Running] } [] with
       | .error stE =>
         .ok { stE with errorLogs := stE.errorLogs + 1,
                        statusHistory := stE.statusHistory ++ [StatusBarState.Idle] }
       | .ok (st1, tl) =>
         .ok { applyTranslationsToFiles env
                 (findRelatedFiles env (registerFile st.trackedFiles ctx.inputPath) ctx.inputPath)
                 tl st1 with
               store := alistSet ctx.inputPath newJson
                 (applyTranslationsToFiles env
                   (findRelatedFiles env (registerFile st.trackedFiles ctx.inputPath) ctx.inputPath)
                   tl st1).store,
               statusHistory := (applyTranslationsToFiles env
                   (findRelatedFiles env (registerFile st.trackedFiles ctx.inputPath) ctx.inputPath)
                   tl st1).statusHistory ++ [StatusBarState.Idle] }) := by
  unfold doExecuteAsync
  rw [hj]
  simp only [hd, hc, Bool.false_eq_true, if_false]

/-- C2 (amended): candidates are exactly the missing/null/empty sibling
paths, and — provided no two sibling files share a target locale — a
sibling path holding a non-empty string is untouched by the event. -/
theorem sibling_nonempty_value_preserved
    (env : PipelineEnv) (ctx : TranslationModuleContext) (st : St)
    (f : String) (q : List String) (s : String) (w : JsonValue)
    (hdist : ((findRelatedFiles env st.trackedFiles ctx.inputPath).map env.localeOf).Nodup)
    (hf : alistGet f st.fs = some (.parsable w))
    (hq : getValueAtPath w q = some (.str s))
    (hs : s ≠ "") :
    (∀ (content : JsonValue) (changes : List DiffEntry) (c : DiffEntry),
        c ∈ candidateFilter content changes →
        getValueAtPath content c.path = none ∨
        getValueAtPath content c.path = some .null ∨
        getValueAtPath content c.path = some (.str "")) ∧
    ∃ w', alistGet f (doExecuteRun env ctx st).fs = some (.parsable w') ∧
          getValueAtPath w' q = some (.str s) := by
  constructor
  · intro content changes c hc
    have h := (candidateFilter_mem content changes c hc).2
    cases hv : getValueAtPath content c.path with
    | none => exact Or.inl rfl
    | some u =>
      rw [hv] at h
      cases u with
      | null => exact Or.inr (Or.inl rfl)
      | str t =>
        have ht : t = "" := by simpa [emptyish] using h
        subst ht
        exact Or.inr (Or.inr rfl)
      | num n => simp [emptyish] at h
      | bool bb => simp [emptyish] at h
      | obj fs2 => simp [emptyish] at h
  · cases hj : ctx.jsonContent with
    | none =>
      refine ⟨w, ?_, hq⟩
      unfold doExecuteRun doExecuteAsync
      rw [hj]
      exact hf
    | some raw =>
      cases raw with
      | malformed =>
        refine ⟨w, ?_, hq⟩
        unfold doExecuteRun doExecuteAsync
        rw [hj]
        exact hf
      | parsable newJson =>
        cases hd : (getTranslationFileDiffs st.store ctx.inputPath newJson).isEmpty with
        | true =>
          refine ⟨w, ?_, hq⟩
          unfold doExecuteRun doExecuteAsync
          rw [hj]
          simp only [hd, if_true]
          exact hf
        | false =>
          cases hc : (extractRelevantChanges
              (getTranslationFileDiffs st.store ctx.inputPath newJson)).isEmpty with
          | true =>
            refine ⟨w, ?_, hq⟩
            unfold doExecuteRun doExecuteAsync
            rw [hj]
            simp only [hd, hc, Bool.false_eq_true, if_false, if_true]
            exact hf
          | false =>
            have hmain := doExecuteAsync_main env ctx st newJson hj hd hc
            have hfiles :
                findRelatedFiles env (registerFile st.trackedFiles ctx.inputPath) ctx.inputPath =
                  findRelatedFiles env st.trackedFiles ctx.inputPath :=
              findRelatedFiles_register env st.trackedFiles ctx.inputPath
            have hnd : (findRelatedFiles env (registerFile st.trackedFiles ctx.inputPath)
                ctx.inputPath).Nodup := by
              rw [hfiles]
              exact hdist.of_map env.localeOf
            cases htc : translateChanges env (env.localeOf ctx.inputPath)
                (extractRelevantChanges (getTranslationFileDiffs st.store ctx.inputPath newJson))
                (findRelatedFiles env (registerFile st.trackedFiles ctx.inputPath) ctx.inputPath)
                { st with trackedFiles := registerFile st.trackedFiles ctx.inputPath,
                          statusHistory := st.statusHistory ++ [StatusBarState.Running] } [] with
            | error stE =>
              refine ⟨w, ?_, hq⟩
              have hinv := (translateChanges_state_inv env (env.localeOf ctx.inputPath)
                (extractRelevantChanges (getTranslationFileDiffs st.store ctx.inputPath newJson))
                (findRelatedFiles env (registerFile st.trackedFiles ctx.inputPath) ctx.inputPath)
                { st with trackedFiles := registerFile st.trackedFiles ctx.inputPath,
                          statusHistory := st.statusHistory ++ [StatusBarState.Running] } []).1
              rw [htc] at hinv
              unfold doExecuteRun
              rw [hmain, htc]
              simp only [exceptState] at hinv
              simp only
              rw [hinv]
              exact hf
            | ok pair =>
              obtain ⟨st1, tl⟩ := pair
              have hinv := (translateChanges_state_inv env (env.localeOf ctx.inputPath)
                (extractRelevantChanges (getTranslationFileDiffs st.store ctx.inputPath newJson))
                (findRelatedFiles env (registerFile st.trackedFiles ctx.inputPath) ctx.inputPath)
                { st with trackedFiles := registerFile st.trackedFiles ctx.inputPath,
                          statusHistory := st.statusHistory ++ [StatusBarState.Running] } []).1
              rw [htc] at hinv
              simp only [exceptState] at hinv
              have hst1fs : st1.fs = st.fs := hinv
              unfold doExecuteRun
              rw [hmain, htc]
              simp only
              by_cases hmem : f ∈ findRelatedFiles env (registerFile st.trackedFiles ctx.inputPath)
                  ctx.inputPath
              · refine applyT_protected env f q s w hs hq _ tl st1 hnd
                  (by rw [hst1fs]; exact hf) ?_
                intro ds hds d hd'
                rcases translateChanges_ok_tl env (env.localeOf ctx.inputPath)
                    (extractRelevantChanges (getTranslationFileDiffs st.store ctx.inputPath newJson))
                    _ _ [] st1 tl htc (env.localeOf f) ds hds with habs | hex
                · cases habs
                · obtain ⟨g, hg, hL, cg, tvs, hcg, hdseq⟩ := hex
                  have hgf : g = f := by
                    have hmap : ((findRelatedFiles env (registerFile st.trackedFiles
                        ctx.inputPath) ctx.inputPath).map env.localeOf).Nodup := by
                      rw [hfiles]; exact hdist
                    exact List.inj_on_of_nodup_map hmap hg hmem hL
                  subst hgf
                  have hcg' : cg = w := by
                    simp only at hcg
                    rw [hf] at hcg
                    injection hcg with hcg
                    injection hcg with hcg
                    exact hcg.symm
                  rw [hcg'] at hdseq
                  rw [hdseq] at hd'
                  obtain ⟨c, hcmem, hpath, hkind⟩ := assignTranslations_mem _ tvs d hd'
                  have hcand := candidateFilter_mem w _ c hcmem
                  constructor
                  · rw [hkind]
                    exact extractRelevantChanges_kind _ c hcand.1
                  · rw [hpath]
                    exact hcand.2
              · refine ⟨w, ?_, hq⟩
                rw [applyT_fs_untouched env f _ tl st1 hmem, hst1fs]
                exact hf

theorem contains_append_singleton (l : List String) (g x : String)
    (h1 : l.contains x = false) (h2 : x ≠ g) : (l ++ [g]).contains x = false := by
  simp only [List.contains_eq_any_beq] at h1 ⊢
  simp_all

theorem applyT_progress (env : PipelineEnv) :
    ∀ (files : List String) (tl : List (String × List DiffEntry)) (st : St),
      files.Nodup →
      (∀ g ∈ files, st.locks.contains g = false) →
      (applyTranslationsToFiles env files tl st).writeLog =
        st.writeLog ++ files.filter (fun g => isParsableIn st.fs g) ∧
      (applyTranslationsToFiles env files tl st).errorLogs =
        st.errorLogs + (files.filter (fun g => !(isParsableIn st.fs g))).length ∧
      ∀ x, isParsableIn st.fs x = false →
        alistGet x (applyTranslationsToFiles env files tl st).fs = alistGet x st.fs := by
  intro files
  induction files with
  | nil =>
    intro tl st _ _
    exact ⟨by simp [applyTranslationsToFiles], by simp [applyTranslationsToFiles],
      fun x _ => rfl⟩
  | cons g rest ih =>
    intro tl st hnd hlocks
    have hgl : st.locks.contains g = false := hlocks g (List.mem_cons_self g rest)
    have hrestl : ∀ x ∈ rest, st.locks.contains x = false :=
      fun x hx => hlocks x (List.mem_cons_of_mem g hx)
    have hgr : g ∉ rest := (List.nodup_cons.mp hnd).1
    have hndr : rest.Nodup := (List.nodup_cons.mp hnd).2
    simp only [applyTranslationsToFiles, hgl, Bool.false_eq_true, if_false]
    cases hget : alistGet g st.fs with
    | none =>
      have hpar : isParsableIn st.fs g = false := by simp [isParsableIn, hget]
      obtain ⟨h1, h2, h3⟩ := ih tl { st with errorLogs := st.errorLogs + 1 } hndr
        (by intro x hx; simpa using hrestl x hx)
      refine ⟨?_, ?_, ?_⟩
      · simpa [List.filter_cons, hpar] using h1
      · rw [h2]
        simp [List.filter_cons, hpar]
        omega
      · intro x hx
        simpa using h3 x (by simpa using hx)
    | some raw =>
      cases raw with
      | malformed =>
        have hpar : isParsableIn st.fs g = false := by simp [isParsableIn, hget]
        obtain ⟨h1, h2, h3⟩ := ih tl { st with errorLogs := st.errorLogs + 1 } hndr
          (by intro x hx; simpa using hrestl x hx)
        refine ⟨?_, ?_, ?_⟩
        · simpa [List.filter_cons, hpar] using h1
        · rw [h2]
          simp [List.filter_cons, hpar]
          omega
        · intro x hx
          simpa using h3 x (by simpa using hx)
      | parsable content =>
        have hpar : isParsableIn st.fs g = true := by simp [isParsableIn, hget]
        simp only
        obtain ⟨h1, h2, h3⟩ := ih tl
          { st with
            locks := st.locks ++ [g]
            fs := alistSet g (.parsable
              (match alistGet (env.localeOf g) tl with
               | none => content
               | some diffs => applyDiffsToJSON content diffs)) st.fs
            writeLog := st.writeLog ++ [g]
            store := alistSet g
              (match alistGet (env.localeOf g) tl with
               | none => content
               | some diffs => applyDiffsToJSON content diffs) st.store }
          hndr
          (by
            intro x hx
            have hxg : x ≠ g := fun h => hgr (h ▸ hx)
            simp only
            exact contains_append_singleton st.locks g x (hrestl x hx) hxg)
        simp only at h1 h2 h3
        have hpar1 : ∀ x ∈ rest,
            isParsableIn (alistSet g (RawFile.parsable
              (match alistGet (env.localeOf g) tl with
               | none => content
               | some diffs => applyDiffsToJSON content diffs)) st.fs) x =
            isParsableIn st.fs x := by
          intro x hx
          have hxg : x ≠ g := fun h => hgr (h ▸ hx)
          simp only [isParsableIn, alistGet_set_ne x g _ _ hxg]
        refine ⟨?_, ?_, ?_⟩
        · rw [h1, List.filter_congr (fun x hx => hpar1 x hx)]
          simp [List.filter_cons, hpar, List.append_assoc]
        · rw [h2, List.filter_congr (fun x hx => by rw [hpar1 x hx])]
          simp [List.filter_cons, hpar]
        · intro x hx
          have hxg : x ≠ g := fun h => by
            rw [h, hpar] at hx
            cases hx
          have hx1 : isParsableIn (alistSet g (RawFile.parsable
              (match alistGet (env.localeOf g) tl with
               | none => content
               | some diffs => applyDiffsToJSON content diffs)) st.fs) x = false := by
            simp only [isParsableIn, alistGet_set_ne x g _ _ hxg]
            simpa [isParsableIn] using hx
          rw [h3 x hx1]
          exact alistGet_set_ne x g _ _ hxg

theorem translateChanges_malformed_error (env : PipelineEnv) (src : String)
    (changes : List DiffEntry) :
    ∀ (files : List String) (st : St) (acc : List (String × List DiffEntry))
      (f : String), f ∈ files → alistGet f st.fs = some .malformed →
      ∃ stE, translateChanges env src changes files st acc = .error stE := by
  intro files
  induction files with
  | nil => intro st acc f hf _; cases hf
  | cons g rest ih =>
    intro st acc f hf hmal
    simp only [translateChanges]
    cases hget : alistGet g st.fs with
    | none => exact ⟨st, rfl⟩
    | some raw =>
      cases raw with
      | malformed => exact ⟨st, rfl⟩
      | parsable content =>
        have hfr : f ∈ rest := by
          rcases List.mem_cons.mp hf with h | h
          · subst h; rw [hget] at hmal; cases hmal
          · exact h
        simp only
        by_cases hempty : (candidateFilter content changes).isEmpty
        · rw [if_pos hempty]
          exact ih st acc f hfr hmal
        · rw [if_neg hempty]
          cases hprov : env.provider ((candidateFilter content changes).map
              (fun c => c.rhs.getD .null)) src (env.localeOf g) with
          | none => exact ⟨_, rfl⟩
          | some tvs =>
            exact ih _ _ f hfr (by simpa using hmal)

theorem singleton_str_ne (c : Char) : (String.mk [c] != "") = true := by
  simp [bne, String.ext_iff]

theorem filter_length_pos_eq_any (l : List String) (p : String → Bool) :
    decide (0 < (l.filter p).length) = l.any p := by
  induction l with
  | nil => simp
  | cons a l ih =>
    by_cases h : p a
    · simp [List.filter_cons, h]
    · simp [List.filter_cons, h, ih]

theorem str_chars_all_ne (s : String) :
    ((s.toList.map (fun c => String.mk [c])).filter (fun v => v != "")).length =
      s.toList.length := by
  rw [List.filter_eq_self.mpr]
  · simp
  · intro a ha
    obtain ⟨c, _, rfl⟩ := List.mem_map.mp ha
    exact singleton_str_ne c

theorem pos_toList_eq_bne (s : String) : decide (0 < s.toList.length) = (s != "") := by
  cases hs : s.toList with
  | nil =>
    have hempty : s = "" := by
      cases s with
      | mk data =>
        simp [String.toList] at hs
        simp [hs]
    simp [hempty]
  | cons c cs =>
    have hne : s ≠ "" := by
      intro h
      rw [h] at hs
      simp [String.toList] at hs
    simp [hs, hne]

theorem extractRelevantChanges_eq_spec (diffs : List DiffEntry) :
    extractRelevantChanges diffs = diffs.filter specRelevant := by
  unfold extractRelevantChanges
  apply List.filter_congr
  intro d _
  obtain ⟨kind, path, lhs0, rhs0⟩ := d
  simp only [specRelevant]
  cases rhs0 with
  | none => simp [stringValuesOpt]
  | some v =>
    cases v with
    | str s =>
      simp only [stringValuesOpt, getAllStringValues, gt_iff_lt, str_chars_all_ne,
        pos_toList_eq_bne]
      cases hs : (s != "") <;> simp [hs]
    | obj fs2 =>
      simp only [stringValuesOpt, getAllStringValues, gt_iff_lt, filter_length_pos_eq_any]
      simp
    | num n => simp [stringValuesOpt, getAllStringValues]
    | bool bb => simp [stringValuesOpt, getAllStringValues]
    | null => simp [stringValuesOpt, getAllStringValues]

theorem extractRelevantChanges_all_deleted (diffs : List DiffEntry)
    (h : ∀ d ∈ diffs, d.kind = DKind.D) : extractRelevantChanges diffs = [] := by
  unfold extractRelevantChanges
  apply List.filter_eq_nil_iff.mpr
  intro d hd
  simp [h d hd]

/-- C3: the relevant-change filter keeps exactly the Added/Edited entries
with a non-empty new value (an object value needing a non-empty string
leaf), and an event whose diff is Deleted-only makes no provider call and
modifies no sibling file. -/
theorem relevant_filter_exact_and_deleted_only_inert :
    (∀ diffs, extractRelevantChanges diffs = diffs.filter specRelevant) ∧
    ∀ (env : PipelineEnv) (ctx : TranslationModuleContext) (st : St)
      (newJson : JsonValue),
      ctx.jsonContent = some (.parsable newJson) →
      (∀ d ∈ getTranslationFileDiffs st.store ctx.inputPath newJson, d.kind = DKind.D) →
      (doExecuteRun env ctx st).providerCalls = st.providerCalls ∧
      (doExecuteRun env ctx st).fs = st.fs ∧
      (doExecuteRun env ctx st).writeLog = st.writeLog ∧
      (doExecuteRun env ctx st).store = st.store ∧
      (doExecuteRun env ctx st).statusHistory = st.statusHistory := by
  refine ⟨extractRelevantChanges_eq_spec, ?_⟩
  intro env ctx st newJson hj hall
  have hch : extractRelevantChanges (getTranslationFileDiffs st.store ctx.inputPath newJson)
      = [] := extractRelevantChanges_all_deleted _ hall
  unfold doExecuteRun doExecuteAsync
  rw [hj]
  cases hd : (getTranslationFileDiffs st.store ctx.inputPath newJson).isEmpty with
  | true =>
    simp only [hd, if_true]
    refine ⟨?_, ?_, ?_, ?_, ?_⟩ <;> trivial
  | false =>
    simp only [hd, hch, Bool.false_eq_true, if_false, List.isEmpty_nil, if_true]
    refine ⟨?_, ?_, ?_, ?_, ?_⟩ <;> trivial

/-- C7: when the translation phase throws (in particular on a provider
failure), nothing is written, the translation store keeps its cached
baseline, the error is logged, and the status bar is still reset to
idle. -/
theorem provider_failure_aborts_event
    (env : PipelineEnv) (ctx : TranslationModuleContext) (st : St)
    (newJson : JsonValue) (stE : St)
    (hj : ctx.jsonContent = some (.parsable newJson))
    (hd : (getTranslationFileDiffs st.store ctx.inputPath newJson).isEmpty = false)
    (hc : (extractRelevantChanges
        (getTranslationFileDiffs st.store ctx.inputPath newJson)).isEmpty = false)
    (herr : translateChanges env (env.localeOf ctx.inputPath)
        (extractRelevantChanges (getTranslationFileDiffs st.store ctx.inputPath newJson))
        (findRelatedFiles env (registerFile st.trackedFiles ctx.inputPath) ctx.inputPath)
        { st with trackedFiles := registerFile st.trackedFiles ctx.inputPath,
                  statusHistory := st.statusHistory ++ [StatusBarState.Running] } [] =
      .error stE) :
    (doExecuteRun env ctx st).writeLog = st.writeLog ∧
    (doExecuteRun env ctx st).fs = st.fs ∧
    (doExecuteRun env ctx st).store = st.store ∧
    (doExecuteRun env ctx st).statusHistory =
      st.statusHistory ++ [StatusBarState.Running, StatusBarState.Idle] ∧
    (doExecuteRun env ctx st).errorLogs = st.errorLogs + 1 := by
  have hinv := translateChanges_state_inv env (env.localeOf ctx.inputPath)
    (extractRelevantChanges (getTranslationFileDiffs st.store ctx.inputPath newJson))
    (findRelatedFiles env (registerFile st.trackedFiles ctx.inputPath) ctx.inputPath)
    { st with trackedFiles := registerFile st.trackedFiles ctx.inputPath,
              statusHistory := st.statusHistory ++ [StatusBarState.Running] } []
  rw [herr] at hinv
  simp only [exceptState] at hinv
  obtain ⟨hfs, hstore, hwl, hlocks, htr, hstat, herrl⟩ := hinv
  unfold doExecuteRun
  rw [doExecuteAsync_main env ctx st newJson hj hd hc, herr]
  simp only at hfs hstore hwl hstat herrl ⊢
  refine ⟨hwl, hfs, hstore, ?_, by rw [herrl]⟩
  rw [hstat]
  simp

/-- C8: a path with no cached content diffs as the empty object, and for
an object content every top-level key comes back as one Added entry. -/
theorem untracked_path_diffs (store : List (String × JsonValue)) (path : String)
    (v : JsonValue) (gs : List (String × JsonValue))
    (h : alistGet path store = none) :
    getTranslationFileDiffs store path v = diffVal [] (JsonValue.obj []) v ∧
    getTranslationFileDiffs store path (.obj gs) =
      gs.map (fun kw =>
        { kind := DKind.N, path := [kw.1], lhs := none, rhs := some kw.2 }) := by
  constructor
  · unfold getTranslationFileDiffs
    rw [h]
    rfl
  · unfold getTranslationFileDiffs
    rw [h]
    show diffVal [] (.obj []) (.obj gs) = _
    rw [diffVal]
    rw [show diffDel [] gs [] = [] from rfl]
    rw [List.nil_append]
    induction gs with
    | nil => rfl
    | cons kw rest ih =>
      obtain ⟨k, w⟩ := kw
      simp only [diffAdd, alistGet, List.map_cons, List.nil_append, List.singleton_append]
      rw [ih]

/-- C9: an Added or Edited entry whose new value is a number, a boolean
or `null` yields no string leaves and is never classified relevant. -/
theorem scalar_new_value_never_relevant (diffs : List DiffEntry) (d : DiffEntry)
    (h : (∃ n, d.rhs = some (.num n)) ∨ (∃ b, d.rhs = some (.bool b)) ∨
      d.rhs = some .null) :
    stringValuesOpt d.rhs = [] ∧ d ∉ extractRelevantChanges diffs := by
  have hsv : stringValuesOpt d.rhs = [] := by
    rcases h with ⟨n, h⟩ | ⟨b, h⟩ | h <;>
      simp [h, stringValuesOpt, getAllStringValues]
  refine ⟨hsv, fun hmem => ?_⟩
  have hpred := (List.mem_filter.mp hmem).2
  rw [hsv] at hpred
  simp at hpred

/-- C10: a context without new raw JSON content leaves the whole state
untouched: no diff, no store change, no write, no status change. -/
theorem no_content_no_effect (env : PipelineEnv) (ctx : TranslationModuleContext)
    (st : St) (h : ctx.jsonContent = none) :
    doExecuteAsync env ctx st = .ok st := by
  unfold doExecuteAsync
  rw [h]

/-- C6 (amended): an unparsable sibling aborts the translate phase
(its exception is not caught there), while during the apply-and-write
phase it is recovered locally — logged, skipped without a write, its
content untouched — and every parseable sibling is still written. -/
theorem malformed_sibling_two_phases
    (env : PipelineEnv) (src : String) (changes : List DiffEntry)
    (files : List String) (tl : List (String × List DiffEntry)) (st : St)
    (f : String) (hnd : files.Nodup)
    (hlocks : ∀ g ∈ files, st.locks.contains g = false)
    (hf : f ∈ files) (hmal : alistGet f st.fs = some .malformed) :
    (∀ acc, ∃ stE, translateChanges env src changes files st acc = .error stE) ∧
    (applyTranslationsToFiles env files tl st).writeLog =
      st.writeLog ++ files.filter (fun g => isParsableIn st.fs g) ∧
    f ∉ files.filter (fun g => isParsableIn st.fs g) ∧
    alistGet f (applyTranslationsToFiles env files tl st).fs = some RawFile.malformed ∧
    st.errorLogs < (applyTranslationsToFiles env files tl st).errorLogs ∧
    ∀ g ∈ files, isParsableIn st.fs g = true →
      g ∈ (applyTranslationsToFiles env files tl st).writeLog := by
  have hfpar : isParsableIn st.fs f = false := by simp [isParsableIn, hmal]
  obtain ⟨h1, h2, h3⟩ := applyT_progress env files tl st hnd hlocks
  refine ⟨?_, h1, ?_, ?_, ?_, ?_⟩
  · intro acc
    exact translateChanges_malformed_error env src changes files st acc f hf hmal
  · intro hmem
    have := (List.mem_filter.mp hmem).2
    rw [hfpar] at this
    cases this
  · rw [h3 f hfpar]
    exact hmal
  · rw [h2]
    have hfb : f ∈ files.filter (fun g => !(isParsableIn st.fs g)) :=
      List.mem_filter.mpr ⟨hf, by rw [hfpar]; rfl⟩
    have hpos : 0 < (files.filter (fun g => !(isParsableIn st.fs g))).length :=
      List.length_pos.mpr (fun hnil => by rw [hnil] at hfb; cases hfb)
    omega
  · intro g hg hgpar
    rw [h1]
    exact List.mem_append_right _ (List.mem_filter.mpr ⟨hg, by rw [hgpar]⟩)

/-- C4 (amended): the chain built by `setNext` runs every handler
unconditionally, left to right; `execute` has no continuation signal to
consult. -/
theorem chain_runs_all_handlers {σ : Type} :
    ∀ (hs : List (TranslationModuleContext → σ → σ))
      (d : TranslationModuleContext → σ → σ)
      (ctx : TranslationModuleContext) (st : σ),
      (chainOf d hs).execute ctx st = hs.foldl (fun s h => h ctx s) (d ctx st) := by
  intro hs
  induction hs with
  | nil => intro d ctx st; rfl
  | cons h rest ih =>
    intro d ctx st
    show (chainOf h rest).execute ctx (d ctx st) = _
    rw [ih h ctx (d ctx st)]
    rfl

/-- C5 (amended): the watch dispatcher consults only its disable flags —
an event is dropped exactly when some flag is set; the lock store's
`has(path)` does not enter the decision, so a lock alone does not stop
the chain. -/
theorem watcher_checks_only_disable_flags {σ : Type}
    (lockSt : FileLockStoreState) (flags : List Bool)
    (handler : String → σ → σ) (uri : String) (st : σ)
    (_hlock : lockSt.hasFileLock uri = true) :
    (flags.any (fun b => b) = false →
      onDidChangeCallback flags handler uri st = handler uri st) ∧
    (flags.any (fun b => b) = true →
      onDidChangeCallback flags handler uri st = st) := by
  constructor
  · intro h
    unfold onDidChangeCallback
    rw [h]
    rfl
  · intro h
    unfold onDidChangeCallback
    rw [h]
    rfl

/-- C1 evaluated at the spec's end-to-end scenario: the provider is asked
to translate `"Cancel"` for `fr`, `fr/common.json` is rewritten — and the
rewritten tree still lacks `common.cancel`: the Added entry was dropped by
`applyDiffsToJSON`. -/
theorem added_key_not_propagated :
    (doExecuteRun c1Env c1Ctx c1St).providerCalls =
      [{ values := [.str "Cancel"], sourceLanguage := "en", targetLanguage := "fr" }] ∧
    (doExecuteRun c1Env c1Ctx c1St).writeLog = ["fr/common.json"] ∧
    alistGet "fr/common.json" (doExecuteRun c1Env c1Ctx c1St).fs =
      some (.parsable c1Fr) ∧
    getValueAtPath c1Fr ["common", "cancel"] = none :=
  ⟨rfl, rfl, rfl, rfl⟩

/-- C2 as stated fails when two sibling files share the target locale
`fr`: the assignment list filtered against `fr/b/common.json` (where `k`
is empty) is applied to `fr/a/common.json` as well, overwriting its
existing non-empty value `"DejaLa"`. -/
theorem locale_collision_overwrites_sibling :
    alistGet "fr/a/common.json" c2xSt.fs =
      some (.parsable (.obj [("k", .str "DejaLa")])) ∧
    alistGet "fr/a/common.json" (doExecuteRun c2xEnv c2xCtx c2xSt).fs =
      some (.parsable (.obj [("k", .str "Annuler2")])) :=
  ⟨rfl, rfl⟩

/-- C6 as stated fails: with `fr/x.json` malformed, the remaining sibling
`de/x.json` is not processed at all — no provider call, no write, one
error logged — although the identical event without the malformed sibling
does call the provider for `de` and writes `de/x.json`. -/
theorem malformed_sibling_aborts_event :
    (doExecuteRun c6Env c6Ctx c6St).providerCalls = [] ∧
    (doExecuteRun c6Env c6Ctx c6St).writeLog = [] ∧
    (doExecuteRun c6Env c6Ctx c6St).errorLogs = 1 ∧
    (doExecuteRun c6Env c6Ctx c6StNoFr).providerCalls =
      [{ values := [.str "Hello"], sourceLanguage := "en", targetLanguage := "de" }] ∧
    (doExecuteRun c6Env c6Ctx c6StNoFr).writeLog = ["de/x.json"] :=
  ⟨rfl, rfl, rfl, rfl, rfl⟩

/-- C4 as stated fails: the first handler finds no diffs (the spec's
example of signaling non-continuation) and changes nothing, yet `execute`
still invokes the successor; the spec-modelled conditional chain with the
same handlers and a `false` flag would stop before it. -/
theorem chain_forwards_after_halt_signal :
    doExecuteRun c1Env c4Ctx c4St = c4St ∧
    ((chainOf translationHandler [markerHandler]).execute c4Ctx c4St).writeLog =
      ["successor-ran"] ∧
    (specProcessChain [fun c st => (translationHandler c st, false),
        fun c st => (markerHandler c st, true)] c4Ctx c4St).writeLog = [] :=
  ⟨rfl, rfl, rfl⟩

/-- C5 as stated fails: the lock store holds the path, yet the dispatcher
callback — whose decision consults only the disable flags — still invokes
the handler chain for that path's change event. -/
theorem watcher_ignores_lock_store :
    c5Locks.hasFileLock "fr/common.json" = true ∧
    onDidChangeCallback [] (fun uri log => log ++ [uri]) "fr/common.json"
      ([] : List String) = ["fr/common.json"] :=
  ⟨rfl, rfl⟩

theorem sibling_preserved_witness :
    ∃ w', alistGet "fr/common.json" (doExecuteRun c1Env c1Ctx c1St).fs =
            some (.parsable w') ∧
          getValueAtPath w' ["common", "save"] = some (.str "Sauvegarder") :=
  (sibling_nonempty_value_preserved c1Env c1Ctx c1St "fr/common.json" ["common", "save"]
    "Sauvegarder" c1Fr (by decide) rfl rfl (by decide)).2

theorem deleted_only_witness :
    (doExecuteRun c1Env c3Ctx c3St).providerCalls = c3St.providerCalls ∧
    (doExecuteRun c1Env c3Ctx c3St).fs = c3St.fs ∧
    (doExecuteRun c1Env c3Ctx c3St).writeLog = c3St.writeLog ∧
    (doExecuteRun c1Env c3Ctx c3St).store = c3St.store ∧
    (doExecuteRun c1Env c3Ctx c3St).statusHistory = c3St.statusHistory :=
  relevant_filter_exact_and_deleted_only_inert.2 c1Env c3Ctx c3St (.obj []) rfl (by decide)

theorem watcher_flags_witness :
    onDidChangeCallback ([] : List Bool)
      (fun (uri : String) (log : List String) => log ++ [uri]) "fr/common.json" [] =
      (fun (uri : String) (log : List String) => log ++ [uri]) "fr/common.json" [] :=
  (watcher_checks_only_disable_flags c5Locks []
    (fun (uri : String) (log : List String) => log ++ [uri]) "fr/common.json" [] rfl).1 rfl

theorem malformed_two_phases_witness :
    (applyTranslationsToFiles c6Env ["fr/x.json", "de/x.json"] [] c6St).writeLog =
      c6St.writeLog ++ ["fr/x.json", "de/x.json"].filter (fun g => isParsableIn c6St.fs g) :=
  (malformed_sibling_two_phases c6Env "en" [] ["fr/x.json", "de/x.json"] [] c6St
    "fr/x.json" (by decide) (by decide) (by decide) rfl).2.1

theorem provider_failure_witness :
    (doExecuteRun c7Env c1Ctx c1St).writeLog = c1St.writeLog ∧
    (doExecuteRun c7Env c1Ctx c1St).fs = c1St.fs ∧
    (doExecuteRun c7Env c1Ctx c1St).store = c1St.store ∧
    (doExecuteRun c7Env c1Ctx c1St).statusHistory =
      c1St.statusHistory ++ [StatusBarState.Running, StatusBarState.Idle] ∧
    (doExecuteRun c7Env c1Ctx c1St).errorLogs = c1St.errorLogs + 1 :=
  provider_failure_aborts_event c7Env c1Ctx c1St c1NewEn c7StE rfl rfl rfl rfl

theorem untracked_diffs_witness :
    getTranslationFileDiffs [] "p" (.obj [("a", .str "x")]) =
      diffVal [] (JsonValue.obj []) (.obj [("a", .str "x")]) ∧
    getTranslationFileDiffs [] "p" (.obj [("a", .str "x")]) =
      [("a", JsonValue.str "x")].map (fun kw =>
        { kind := DKind.N, path := [kw.1], lhs := none, rhs := some kw.2 }) :=
  untracked_path_diffs [] "p" (.obj [("a", .str "x")]) [("a", .str "x")] rfl

theorem scalar_rhs_witness :
    stringValuesOpt c9Entry.rhs = [] ∧ c9Entry ∉ extractRelevantChanges [c9Entry] :=
  scalar_new_value_never_relevant [c9Entry] c9Entry (Or.inl ⟨5, rfl⟩)

theorem no_content_witness :
    doExecuteAsync c1Env { inputPath := "p", jsonContent := none } c1St = .ok c1St :=
  no_content_no_effect c1Env { inputPath := "p", jsonContent := none } c1St rfl
